import Mathlib

/-!
Verification of the IPv4 validator/extractor in `main.py`.

The program's core is one compiled regular expression

  IPV4_OCTET = (?:25[0-5]|2[0-4]\d|1\d{2}|[1-9]?\d)
  IPV4_REGEX = \b IPV4_OCTET (?:\. IPV4_OCTET){3} \b

used in two ways: `is_valid_ipv4` runs `IPV4_REGEX.fullmatch(ip.strip())`
after an `isinstance(ip, str)` guard, and `find_ipv4_in_text` runs
`IPV4_REGEX.findall(text)` after a `text is None` guard.

We embed the regex as a backtracking matcher in continuation-passing
style, mirroring CPython's `re` engine on this pattern:
  * alternation is ordered (first alternative wins, with backtracking
    into later alternatives when the continuation fails);
  * `[1-9]?\d` with a greedy `?` is equivalent to the ordered
    alternation `[1-9]\d | \d`, which is how it is written here;
  * the pattern is a `str` pattern with no flags, so `\d` matches any
    Unicode decimal digit (category Nd): it is modelled by the exact
    table of Nd digit blocks (`ndStarts`, Unicode 14.0), and
    `str.strip()` by the exact set of code points CPython strips;
  * `\b` is a word-boundary assertion: it holds at a position iff
    exactly one of the two neighbouring characters is a word character
    (`\w`), where a missing neighbour (start/end of text) counts as a
    non-word character.  We model `\w` by the fragment consisting of
    all Unicode decimal digits, the ASCII letters and the underscore;
    CPython's `\w` additionally contains non-ASCII letters and marks,
    so the model's word class is a subset of the real one and every
    boundary-based exclusion proved below is entailed by the program's
    stricter `\b`;
  * `fullmatch` succeeds iff some backtracking path consumes the whole
    string; `findall` scans left to right, takes at each position the
    first (priority) match, and resumes after the matched substring.

Python values passed to the two entry points are modelled by `PyValue`;
exceptions raised by the `re` library on non-text input are modelled by
`Except PyErr`.  The CLI (`cli_main`) is modelled as a pure function of
the parsed arguments and of oracles for the outcomes of the interactive
prompt, the HTTP fetch, the file read and the embedded test suite.
-/

/-- Character code-point range test: `inRange lo hi c` holds iff
`lo ≤ c < hi+1` as code points.  Used to transcribe the regex character
classes (`\d` is 48..57, `[0-5]` is 48..53, and so on). -/
def inRange (lo hi : Nat) (c : Char) : Bool :=
  decide (lo ≤ c.toNat) && decide (c.toNat ≤ hi)

/-- ASCII decimal digits (code points 48..57): the characters of the
spec's decimal tokens, and the first block of the regex class `\d`. -/
def isDig (c : Char) : Bool := inRange 48 57 c

/-- Start code points of the 10-character decimal-digit blocks matched
by the regex class `\d` in a CPython `str` pattern (Unicode category
Nd, Unicode 14.0 table; by Unicode stability each block holds the
digits 0..9 at consecutive code points).  The characters the claims
turn on (ASCII and Arabic-Indic digits) are Nd in every version. -/
def ndStarts : List Nat :=
  [48, 1632, 1776, 1984, 2406, 2534, 2662, 2790, 2918, 3046, 3174, 3302,
   3430, 3558, 3664, 3792, 3872, 4160, 4240, 6112, 6160, 6470, 6608, 6784,
   6800, 6992, 7088, 7232, 7248, 42528, 43216, 43264, 43472, 43504, 43600,
   44016, 65296, 66720, 68912, 69734, 69872, 69942, 70096, 70384, 70736,
   70864, 71248, 71360, 71472, 71904, 72016, 72784, 73040, 73120, 92768,
   92864, 93008, 120782, 120792, 120802, 120812, 120822, 123200, 123632,
   125264, 130032]

/-- The regex class `\d` of a CPython `str` pattern: any Unicode
decimal digit. -/
def isDigU (c : Char) : Bool :=
  ndStarts.any (fun s => decide (s ≤ c.toNat) && decide (c.toNat ≤ s + 9))

/-- Numeric value of a Unicode decimal digit: its offset inside its
digit block (0 for non-digits; never used there). -/
def digitValU (c : Char) : Nat :=
  match ndStarts.find? (fun s => decide (s ≤ c.toNat) && decide (c.toNat ≤ s + 9)) with
  | Option.some s => c.toNat - s
  | Option.none => 0

/-- The regex class `\w` (word characters): all Unicode decimal
digits, ASCII letters 65..90 and 97..122, underscore 95.  A subset of
CPython's Unicode-aware `\w` (which also has non-ASCII letters and
marks), so the program's `\b` is at least as strict as the model's. -/
def wordChar (c : Char) : Bool :=
  isDigU c || inRange 65 90 c || inRange 97 122 c || inRange 95 95 c

/-- Word-character test for an optional neighbour: a missing neighbour
(start or end of the text) counts as a non-word character. -/
def wordB (oc : Option Char) : Bool :=
  match oc with
  | Option.none => false
  | Option.some c => wordChar c

/-- The `\b` assertion between two (optional) neighbouring characters:
true iff exactly one side is a word character. -/
def isBoundary (p n : Option Char) : Bool := wordB p != wordB n

/-- Whitespace stripped by Python's `str.strip()`: exactly the code
points CPython strips (9..13, 28..32, 133, 160, 5760, 8192..8202,
8232, 8233, 8239, 8287, 12288). -/
def pyIsSpace (c : Char) : Bool :=
  inRange 9 13 c || inRange 28 32 c || inRange 133 133 c || inRange 160 160 c ||
  inRange 5760 5760 c || inRange 8192 8202 c || inRange 8232 8233 c ||
  inRange 8239 8239 c || inRange 8287 8287 c || inRange 12288 12288 c

/-- Python's `str.strip()`: drop leading and trailing whitespace. -/
def pyStrip (l : List Char) : List Char :=
  ((l.dropWhile pyIsSpace).reverse.dropWhile pyIsSpace).reverse

/-- Regex alternative `25[0-5]` of `IPV4_OCTET`: on success the
continuation receives the last consumed character and the rest. -/
def alt25x {β : Type} (cs : List Char) (k : Char → List Char → Option β) : Option β :=
  match cs with
  | c0 :: c1 :: c2 :: rest =>
      if c0 == '2' && c1 == '5' && inRange 48 53 c2 then k c2 rest else Option.none
  | _ => Option.none

/-- Regex alternative `2[0-4]\d` of `IPV4_OCTET`. -/
def alt2xx {β : Type} (cs : List Char) (k : Char → List Char → Option β) : Option β :=
  match cs with
  | c0 :: c1 :: c2 :: rest =>
      if c0 == '2' && inRange 48 52 c1 && isDigU c2 then k c2 rest else Option.none
  | _ => Option.none

/-- Regex alternative `1\d{2}` of `IPV4_OCTET`. -/
def alt1xx {β : Type} (cs : List Char) (k : Char → List Char → Option β) : Option β :=
  match cs with
  | c0 :: c1 :: c2 :: rest =>
      if c0 == '1' && isDigU c1 && isDigU c2 then k c2 rest else Option.none
  | _ => Option.none

/-- The two-character branch `[1-9]\d` of the greedy `[1-9]?\d`. -/
def altD2 {β : Type} (cs : List Char) (k : Char → List Char → Option β) : Option β :=
  match cs with
  | c0 :: c1 :: rest =>
      if inRange 49 57 c0 && isDigU c1 then k c1 rest else Option.none
  | _ => Option.none

/-- The one-character branch `\d` of the greedy `[1-9]?\d`. -/
def altD1 {β : Type} (cs : List Char) (k : Char → List Char → Option β) : Option β :=
  match cs with
  | c0 :: rest => if isDigU c0 then k c0 rest else Option.none
  | _ => Option.none

/-- `IPV4_OCTET = (?:25[0-5]|2[0-4]\d|1\d{2}|[1-9]?\d)` with the
engine's ordered alternation (a later alternative is tried when an
earlier one, or its continuation, fails). -/
def matchOctet {β : Type} (cs : List Char) (k : Char → List Char → Option β) : Option β :=
  alt25x cs k <|> (alt2xx cs k <|> (alt1xx cs k <|> (altD2 cs k <|> altD1 cs k)))

/-- `(?:\.IPV4_OCTET){n}`: `n` repetitions of a literal dot followed by
an octet; `last` is the last character consumed so far. -/
def matchDots {β : Type} (n : Nat) (last : Char) (cs : List Char)
    (k : Char → List Char → Option β) : Option β :=
  match n with
  | 0 => k last cs
  | Nat.succ m =>
    match cs with
    | [] => Option.none
    | c :: rest =>
        if c == '.' then matchOctet rest (fun l r => matchDots m l r k) else Option.none

/-- The body of `IPV4_REGEX` between the two `\b` assertions:
`IPV4_OCTET (?:\.IPV4_OCTET){3}`. -/
def matchIPv4 {β : Type} (cs : List Char) (k : Char → List Char → Option β) : Option β :=
  matchOctet cs (fun l r => matchDots 3 l r k)

/-- Final continuation for `fullmatch`: the match must end exactly at
the end of the input, and the trailing `\b` must hold there. -/
def kF : Char → List Char → Option Unit := fun l r =>
  if r.isEmpty && isBoundary (Option.some l) Option.none then Option.some () else Option.none

/-- `IPV4_REGEX.fullmatch(cs)` as a Boolean: the leading `\b` (with no
character before the start), the pattern body, the trailing `\b`, and
consumption of the entire input. -/
def fullmatchIPv4 (cs : List Char) : Bool :=
  (if isBoundary Option.none cs.head? then matchIPv4 cs kF else Option.none).isSome

/-- Final continuation for a scan-mode match attempt: the trailing `\b`
must hold between the last consumed character and the next character of
the input; on success the unconsumed rest is returned. -/
def kS : Char → List Char → Option (List Char) := fun l r =>
  if isBoundary (Option.some l) r.head? then Option.some r else Option.none

/-- One match attempt of `IPV4_REGEX` at the current position of a scan;
`prev` is the character just before the position (`Option.none` at the
start of the text).  Returns the unconsumed rest of the first
(priority) match, or `Option.none` when no match starts here. -/
def matchAt (prev : Option Char) (cs : List Char) : Option (List Char) :=
  if isBoundary prev cs.head? then matchIPv4 cs kS else Option.none

/-- The scan loop of `IPV4_REGEX.findall`: try a match at each position
from left to right; on a match of length `L ≥ 1` record the position
and the matched characters and resume right after them, otherwise
advance one character.  `fuel` bounds the recursion depth; every step
strictly shortens the text, so any `fuel > cs.length` is enough and the
fuel-exhausted branch is never taken by the callers below.  (The
`L = 0` branch mirrors CPython's empty-match rule; this pattern never
matches the empty string.) -/
def findAllAux (fuel : Nat) (prev : Option Char) (cs : List Char) (pos : Nat) :
    List (Nat × List Char) :=
  match fuel with
  | 0 => []
  | Nat.succ fuel' =>
    match cs with
    | [] => []
    | c :: rest =>
      match matchAt prev (c :: rest) with
      | Option.none => findAllAux fuel' (Option.some c) rest (pos + 1)
      | Option.some r =>
        if (c :: rest).length - r.length = 0 then
          (pos, []) :: findAllAux fuel' (Option.some c) rest (pos + 1)
        else
          (pos, (c :: rest).take ((c :: rest).length - r.length)) ::
            findAllAux fuel' (((c :: rest).take ((c :: rest).length - r.length)).getLastD c)
              r (pos + ((c :: rest).length - r.length))

/-- All scan matches of `IPV4_REGEX` in `s`, with their start positions. -/
def findAllPos (s : String) : List (Nat × List Char) :=
  findAllAux (s.data.length + 1) Option.none s.data 0

/-- `IPV4_REGEX.findall(s)`: the matched substrings, left to right. -/
def findAllIPv4 (s : String) : List String :=
  (findAllPos s).map (fun x => String.mk x.2)

/-- Model of the Python values that reach the two entry points:
`None`, text strings, and non-text values (integers, byte strings,
lists). -/
inductive PyValue : Type where
  | none : PyValue
  | str : String → PyValue
  | int : Int → PyValue
  | bytes : List Nat → PyValue
  | list : List PyValue → PyValue

/-- Exceptions of the modelled library calls: `re` raises `TypeError`
when a `str` pattern is applied to a non-text object. -/
inductive PyErr : Type where
  | typeError : PyErr
deriving DecidableEq

/-- `is_valid_ipv4(ip)`: `False` for any non-`str` input (the
`isinstance` guard), otherwise `bool(IPV4_REGEX.fullmatch(ip.strip()))`.
The body cannot raise, hence the result is always `Except.ok`. -/
def is_valid_ipv4 (ip : PyValue) : Except PyErr Bool :=
  match ip with
  | PyValue.str s => Except.ok (fullmatchIPv4 (pyStrip s.data))
  | _ => Except.ok false

/-- `find_ipv4_in_text(text)`: `[]` for `None` (the explicit guard),
`IPV4_REGEX.findall(text)` for a string; for any other value the
unguarded `findall` call raises `TypeError` ("expected string or
bytes-like object" / "cannot use a string pattern on a bytes-like
object"). -/
def find_ipv4_in_text (text : PyValue) : Except PyErr (List String) :=
  match text with
  | PyValue.none => Except.ok []
  | PyValue.str s => Except.ok (findAllIPv4 s)
  | _ => Except.error PyErr.typeError

/-- CLI `--mode` choices. -/
inductive Mode : Type where
  | user : Mode
  | url : Mode
  | file : Mode
deriving DecidableEq

/-- Parsed CLI arguments (after a successful `argparse` parse):
`--mode`, `--source` (absent or the given string), `--test`. -/
structure Args : Type where
  mode : Mode
  source : Option String
  test : Bool

/-- Oracles for the effectful collaborators of `cli_main`: the line
read by `input()`, the outcomes of `extract_from_url` and
`extract_from_file`, and whether the embedded unittest suite passes. -/
structure World : Type where
  stdinLine : String
  fetchResult : Except String String
  fileResult : Except String String
  testsPass : Bool

/-- The check `if not args.source`: true for `None` and for the empty
string (Python falsiness). -/
def sourceFalsy (s : Option String) : Bool :=
  match s with
  | Option.none => true
  | Option.some v => v.isEmpty

/-- Process exit code of `cli_main(argv)` as a function of the parsed
arguments and the collaborator oracles, following the source line by
line: `--test` runs the suite first (`run_tests` calls `sys.exit(1)` on
failure, otherwise `cli_main` returns and the process exits 0); `user`
mode prints and exits 0; `url`/`file` modes exit 2 when
`not args.source`, exit 1 when the fetch/read raises, and exit 0
otherwise. -/
def cli_main (args : Args) (w : World) : Nat :=
  if args.test then
    (if w.testsPass then 0 else 1)
  else
    match args.mode with
    | Mode.user => 0
    | Mode.url =>
      if sourceFalsy args.source then 2
      else
        match w.fetchResult with
        | Except.error _ => 1
        | Except.ok _ => 0
    | Mode.file =>
      if sourceFalsy args.source then 2
      else
        match w.fileResult with
        | Except.error _ => 1
        | Except.ok _ => 0

/-- Decimal value of a digit token (most significant digit first). -/
def tokVal (t : List Char) : Nat :=
  t.foldl (fun a c => 10 * a + (c.toNat - 48)) 0

/-- A decimal octet token as the spec describes it: nonempty, all
digits, value in [0, 255]. -/
def isDecOctetTok (t : List Char) : Bool :=
  !t.isEmpty && t.all isDig && decide (tokVal t ≤ 255)

/-- Split a character list at every literal dot (the token list of the
spec's "dot-separated" reading; `n` dots yield `n + 1` tokens). -/
def splitDots (l : List Char) : List (List Char) :=
  match l with
  | [] => [[]]
  | c :: rest =>
    if c == '.' then [] :: splitDots rest
    else
      match splitDots rest with
      | [] => [[c]]
      | t :: ts => (c :: t) :: ts

/-- The spec's invariant on accepted/returned strings: exactly four
dot-separated decimal tokens, each an integer in [0, 255], with no
extraneous characters. -/
def decomposes4 (l : List Char) : Bool :=
  (splitDots l).length == 4 && (splitDots l).all isDecOctetTok

/-- Decimal value of a token of Unicode decimal digits, each digit
read by its numeric value (most significant first). -/
def tokValU (t : List Char) : Nat :=
  t.foldl (fun a c => 10 * a + digitValU c) 0

/-- A Unicode decimal octet token: nonempty, all Unicode decimal
digits, numeric value in [0, 255]. -/
def isDecOctetTokU (t : List Char) : Bool :=
  !t.isEmpty && t.all isDigU && decide (tokValU t ≤ 255)

/-- The amended C1/C3 invariant: exactly four dot-separated runs of
Unicode decimal digits, each run's numeric value in [0, 255], with no
extraneous characters. -/
def decomposes4U (l : List Char) : Bool :=
  (splitDots l).length == 4 && (splitDots l).all isDecOctetTokU

/-- "No leading zero on a multi-digit token". -/
def noLeadZero (t : List Char) : Bool :=
  match t with
  | c :: _ :: _ => !(c == '0')
  | _ => true

/-- The token shapes IPV4_OCTET can consume in one alternative:
`\d`, `[1-9]\d`, `1\d{2}`, `2[0-4]\d`, `25[0-5]`. -/
def isOctetRepr (t : List Char) : Bool :=
  match t with
  | [a] => isDigU a
  | [a, b] => inRange 49 57 a && isDigU b
  | [a, b, c] =>
      (a == '1' && isDigU b && isDigU c) ||
      (a == '2' && inRange 48 52 b && isDigU c) ||
      (a == '2' && b == '5' && inRange 48 53 c)
  | _ => false


/-- Modelled from the amended C9 claim: when `--test` is given the
suite runs first (exit 1 on failure, 0 on success, regardless of mode
and source); otherwise exit 2 when the mode is `url` or `file` and
`--source` is missing or empty; exit 1 when the url fetch or the file
read fails; exit 0 otherwise. -/
def cliSpecExit (args : Args) (w : World) : Nat :=
  if args.test then
    (if w.testsPass then 0 else 1)
  else if (args.mode = Mode.url ∨ args.mode = Mode.file) ∧
      (args.source = Option.none ∨ args.source = Option.some "") then 2
  else if args.mode = Mode.url ∧ w.fetchResult.isOk = false then 1
  else if args.mode = Mode.file ∧ w.fileResult.isOk = false then 1
  else 0

theorem opOr_some {α : Type} {a b : Option α} {x : α} (h : (a <|> b) = Option.some x) :
    a = Option.some x ∨ b = Option.some x := by
  cases a with
  | none => right; simpa [Option.orElse] using h
  | some y => left; simpa [Option.orElse] using h

theorem opOr_isSome_left {α : Type} {a : Option α} (b : Option α) (h : a.isSome = true) :
    (a <|> b).isSome = true := by
  cases a with
  | none => simp at h
  | some y => simp [Option.orElse]

theorem opOr_isSome_right {α : Type} (a : Option α) {b : Option α} (h : b.isSome = true) :
    (a <|> b).isSome = true := by
  cases a with
  | none => simpa [Option.orElse] using h
  | some y => simp [Option.orElse]

theorem alt25x_inv {β : Type} {cs : List Char} {k : Char → List Char → Option β} {b : β}
    (h : alt25x cs k = Option.some b) :
    ∃ c2 rest, cs = '2' :: '5' :: c2 :: rest ∧ inRange 48 53 c2 = true ∧
      k c2 rest = Option.some b := by
  match cs with
  | [] => simp [alt25x] at h
  | [c0] => simp [alt25x] at h
  | [c0, c1] => simp [alt25x] at h
  | c0 :: c1 :: c2 :: rest =>
    simp only [alt25x] at h
    split_ifs at h with hc
    simp only [Bool.and_eq_true, beq_iff_eq] at hc
    obtain ⟨⟨h0, h1⟩, h2⟩ := hc
    subst h0; subst h1
    exact ⟨c2, rest, rfl, h2, h⟩

theorem alt2xx_inv {β : Type} {cs : List Char} {k : Char → List Char → Option β} {b : β}
    (h : alt2xx cs k = Option.some b) :
    ∃ c1 c2 rest, cs = '2' :: c1 :: c2 :: rest ∧ inRange 48 52 c1 = true ∧ isDigU c2 = true ∧
      k c2 rest = Option.some b := by
  match cs with
  | [] => simp [alt2xx] at h
  | [c0] => simp [alt2xx] at h
  | [c0, c1] => simp [alt2xx] at h
  | c0 :: c1 :: c2 :: rest =>
    simp only [alt2xx] at h
    split_ifs at h with hc
    simp only [Bool.and_eq_true, beq_iff_eq] at hc
    obtain ⟨⟨h0, h1⟩, h2⟩ := hc
    subst h0
    exact ⟨c1, c2, rest, rfl, h1, h2, h⟩

theorem alt1xx_inv {β : Type} {cs : List Char} {k : Char → List Char → Option β} {b : β}
    (h : alt1xx cs k = Option.some b) :
    ∃ c1 c2 rest, cs = '1' :: c1 :: c2 :: rest ∧ isDigU c1 = true ∧ isDigU c2 = true ∧
      k c2 rest = Option.some b := by
  match cs with
  | [] => simp [alt1xx] at h
  | [c0] => simp [alt1xx] at h
  | [c0, c1] => simp [alt1xx] at h
  | c0 :: c1 :: c2 :: rest =>
    simp only [alt1xx] at h
    split_ifs at h with hc
    simp only [Bool.and_eq_true, beq_iff_eq] at hc
    obtain ⟨⟨h0, h1⟩, h2⟩ := hc
    subst h0
    exact ⟨c1, c2, rest, rfl, h1, h2, h⟩

theorem altD2_inv {β : Type} {cs : List Char} {k : Char → List Char → Option β} {b : β}
    (h : altD2 cs k = Option.some b) :
    ∃ c0 c1 rest, cs = c0 :: c1 :: rest ∧ inRange 49 57 c0 = true ∧ isDigU c1 = true ∧
      k c1 rest = Option.some b := by
  match cs with
  | [] => simp [altD2] at h
  | [c0] => simp [altD2] at h
  | c0 :: c1 :: rest =>
    simp only [altD2] at h
    split_ifs at h with hc
    simp only [Bool.and_eq_true] at hc
    obtain ⟨h0, h1⟩ := hc
    exact ⟨c0, c1, rest, rfl, h0, h1, h⟩

theorem altD1_inv {β : Type} {cs : List Char} {k : Char → List Char → Option β} {b : β}
    (h : altD1 cs k = Option.some b) :
    ∃ c0 rest, cs = c0 :: rest ∧ isDigU c0 = true ∧ k c0 rest = Option.some b := by
  match cs with
  | [] => simp [altD1] at h
  | c0 :: rest =>
    simp only [altD1] at h
    split_ifs at h with hc
    exact ⟨c0, rest, rfl, hc, h⟩

theorem dig_of_inRange {lo hi : Nat} {c : Char} (hlo : 48 ≤ lo) (hhi : hi ≤ 57)
    (h : inRange lo hi c = true) : isDigU c = true := by
  simp only [inRange, Bool.and_eq_true, decide_eq_true_eq] at h
  simp only [isDigU, List.any_eq_true, Bool.and_eq_true, decide_eq_true_eq]
  exact ⟨48, by decide, by omega, by omega⟩

theorem octRepr_25 {c : Char} (h : inRange 48 53 c = true) :
    isOctetRepr ['2', '5', c] = true := by
  simp [isOctetRepr, h]

theorem octRepr_2x {b c : Char} (h1 : inRange 48 52 b = true) (h2 : isDigU c = true) :
    isOctetRepr ['2', b, c] = true := by
  simp [isOctetRepr, h1, h2]

theorem octRepr_1x {b c : Char} (h1 : isDigU b = true) (h2 : isDigU c = true) :
    isOctetRepr ['1', b, c] = true := by
  simp [isOctetRepr, h1, h2]

theorem octRepr_d2 {a b : Char} (h0 : inRange 49 57 a = true) (h1 : isDigU b = true) :
    isOctetRepr [a, b] = true := by
  simp [isOctetRepr, h0, h1]

theorem octRepr_d1 {a : Char} (h : isDigU a = true) : isOctetRepr [a] = true := by
  simp [isOctetRepr, h]

theorem matchOctet_inv {β : Type} {cs : List Char} {k : Char → List Char → Option β} {b : β}
    (h : matchOctet cs k = Option.some b) :
    ∃ t l rest, cs = t ++ rest ∧ isOctetRepr t = true ∧ isDigU l = true ∧
      k l rest = Option.some b := by
  unfold matchOctet at h
  rcases opOr_some h with h1 | h'
  · obtain ⟨c2, rest, hcs, hc, hk⟩ := alt25x_inv h1
    exact ⟨['2', '5', c2], c2, rest, by simpa using hcs, octRepr_25 hc,
      dig_of_inRange (by omega) (by omega) hc, hk⟩
  rcases opOr_some h' with h2 | h'
  · obtain ⟨c1, c2, rest, hcs, hc1, hc2, hk⟩ := alt2xx_inv h2
    exact ⟨['2', c1, c2], c2, rest, by simpa using hcs, octRepr_2x hc1 hc2, hc2, hk⟩
  rcases opOr_some h' with h3 | h'
  · obtain ⟨c1, c2, rest, hcs, hc1, hc2, hk⟩ := alt1xx_inv h3
    exact ⟨['1', c1, c2], c2, rest, by simpa using hcs, octRepr_1x hc1 hc2, hc2, hk⟩
  rcases opOr_some h' with h4 | h5
  · obtain ⟨c0, c1, rest, hcs, hc0, hc1, hk⟩ := altD2_inv h4
    exact ⟨[c0, c1], c1, rest, by simpa using hcs, octRepr_d2 hc0 hc1, hc1, hk⟩
  · obtain ⟨c0, rest, hcs, hc0, hk⟩ := altD1_inv h5
    exact ⟨[c0], c0, rest, by simpa using hcs, octRepr_d1 hc0, hc0, hk⟩

theorem matchDots_inv {β : Type} :
    ∀ (n : Nat) (last : Char) (cs : List Char) (k : Char → List Char → Option β) (b : β),
      matchDots n last cs k = Option.some b →
      ∃ (toks : List (List Char)) (l : Char) (rest : List Char),
        toks.length = n ∧ (∀ t ∈ toks, isOctetRepr t = true) ∧
        cs = (toks.map (fun t => '.' :: t)).flatten ++ rest ∧
        (l = last ∨ isDigU l = true) ∧ k l rest = Option.some b := by
  intro n
  induction n with
  | zero =>
    intro last cs k b h
    exact ⟨[], last, cs, rfl, by simp, by simp, Or.inl rfl, by simpa [matchDots] using h⟩
  | succ m ih =>
    intro last cs k b h
    match cs with
    | [] => simp [matchDots] at h
    | c :: rest =>
      simp only [matchDots] at h
      split_ifs at h with hc
      obtain ⟨t, l1, rest1, hcs1, ht, hl1, hk1⟩ := matchOctet_inv h
      obtain ⟨toks, l, rest2, hlen, htoks, hrest1, hl, hk⟩ := ih l1 rest1 k b hk1
      refine ⟨t :: toks, l, rest2, by simp [hlen], ?_, ?_, ?_, hk⟩
      · intro u hu
        rcases List.mem_cons.mp hu with h' | h'
        · exact h' ▸ ht
        · exact htoks u h'
      · have hcd : c = '.' := by simpa using hc
        subst hcd
        simp [hcs1, hrest1, List.append_assoc]
      · rcases hl with h' | h'
        · exact Or.inr (h' ▸ hl1)
        · exact Or.inr h'

theorem matchIPv4_inv {β : Type} {cs : List Char} {k : Char → List Char → Option β} {b : β}
    (h : matchIPv4 cs k = Option.some b) :
    ∃ t1 t2 t3 t4 l rest,
      cs = (t1 ++ '.' :: (t2 ++ '.' :: (t3 ++ '.' :: t4))) ++ rest ∧
      isOctetRepr t1 = true ∧ isOctetRepr t2 = true ∧ isOctetRepr t3 = true ∧
      isOctetRepr t4 = true ∧ isDigU l = true ∧ k l rest = Option.some b := by
  unfold matchIPv4 at h
  obtain ⟨t1, l1, rest1, hcs1, ht1, hl1, hk1⟩ := matchOctet_inv h
  obtain ⟨toks, l, rest2, hlen, htoks, hrest1, hl, hk⟩ := matchDots_inv 3 l1 rest1 k b hk1
  match toks, hlen with
  | [t2, t3, t4], _ =>
    refine ⟨t1, t2, t3, t4, l, rest2, ?_, ht1, ?_, ?_, ?_, ?_, hk⟩
    · subst hcs1
      simp [hrest1, List.append_assoc]
    · exact htoks t2 (by simp)
    · exact htoks t3 (by simp)
    · exact htoks t4 (by simp)
    · rcases hl with h' | h'
      · exact h' ▸ hl1
      · exact h'

theorem dig_word {c : Char} (h : isDigU c = true) : wordChar c = true := by
  simp [wordChar, h]

theorem octRepr_head {t : List Char} (h : isOctetRepr t = true) :
    ∃ a t', t = a :: t' ∧ isDigU a = true := by
  match t, h with
  | [a], h =>
    exact ⟨a, [], rfl, by simpa [isOctetRepr] using h⟩
  | [a, b], h =>
    have h' : inRange 49 57 a = true ∧ isDigU b = true := by
      simpa [isOctetRepr, Bool.and_eq_true] using h
    exact ⟨a, [b], rfl, dig_of_inRange (by omega) (by omega) h'.1⟩
  | [a, b, c], h =>
    simp only [isOctetRepr, Bool.or_eq_true, Bool.and_eq_true, beq_iff_eq] at h
    rcases h with (⟨⟨ha, _⟩, _⟩ | ⟨⟨ha, _⟩, _⟩) | ⟨⟨ha, _⟩, _⟩ <;>
      exact ⟨a, [b, c], rfl, by subst ha; decide⟩

theorem matchOctet_complete {β : Type} {t : List Char} (rest : List Char)
    {k : Char → List Char → Option β} (ht : isOctetRepr t = true)
    (hk : ∀ l, isDigU l = true → (k l rest).isSome = true) :
    (matchOctet (t ++ rest) k).isSome = true := by
  unfold matchOctet
  match t, ht with
  | [a], ht =>
    have ha : isDigU a = true := by simpa [isOctetRepr] using ht
    apply opOr_isSome_right
    apply opOr_isSome_right
    apply opOr_isSome_right
    apply opOr_isSome_right
    simpa [altD1, ha] using hk a ha
  | [a, b], ht =>
    have h' : inRange 49 57 a = true ∧ isDigU b = true := by
      simpa [isOctetRepr, Bool.and_eq_true] using ht
    apply opOr_isSome_right
    apply opOr_isSome_right
    apply opOr_isSome_right
    apply opOr_isSome_left
    simpa [altD2, h'.1, h'.2] using hk b h'.2
  | [a, b, c], ht =>
    simp only [isOctetRepr, Bool.or_eq_true, Bool.and_eq_true, beq_iff_eq] at ht
    rcases ht with (⟨⟨ha, hb⟩, hc⟩ | ⟨⟨ha, hb⟩, hc⟩) | ⟨⟨ha, hb⟩, hc⟩
    · subst ha
      apply opOr_isSome_right
      apply opOr_isSome_right
      apply opOr_isSome_left
      simpa [alt1xx, hb, hc] using hk c hc
    · subst ha
      apply opOr_isSome_right
      apply opOr_isSome_left
      simpa [alt2xx, hb, hc] using hk c hc
    · subst ha; subst hb
      apply opOr_isSome_left
      have hcd : isDigU c = true := dig_of_inRange (by omega) (by omega) hc
      simpa [alt25x, hc] using hk c hcd

theorem matchDots_complete :
    ∀ (toks : List (List Char)), (∀ t ∈ toks, isOctetRepr t = true) →
      ∀ last, isDigU last = true →
      (matchDots toks.length last ((toks.map (fun t => '.' :: t)).flatten) kF).isSome = true := by
  intro toks
  induction toks with
  | nil =>
    intro _ last hl
    have hw : wordChar last = true := dig_word hl
    simp [matchDots, kF, isBoundary, wordB, hw]
  | cons t ts ih =>
    intro h last hl
    simp only [List.map_cons, List.flatten_cons, List.length_cons, List.cons_append]
    rw [matchDots]
    simp only [beq_self_eq_true, if_true]
    exact matchOctet_complete _ (h t (by simp))
      (fun l hld => ih (fun u hu => h u (by simp [hu])) l hld)

theorem fullmatchIPv4_complete {t1 t2 t3 t4 : List Char}
    (h1 : isOctetRepr t1 = true) (h2 : isOctetRepr t2 = true)
    (h3 : isOctetRepr t3 = true) (h4 : isOctetRepr t4 = true) :
    fullmatchIPv4 (t1 ++ '.' :: (t2 ++ '.' :: (t3 ++ '.' :: t4))) = true := by
  obtain ⟨a, t1', ht1e, ha⟩ := octRepr_head h1
  have hw : wordChar a = true := dig_word ha
  have hbd : isBoundary Option.none (t1 ++ '.' :: (t2 ++ '.' :: (t3 ++ '.' :: t4))).head? = true := by
    subst ht1e
    simp [isBoundary, wordB, hw]
  unfold fullmatchIPv4
  rw [if_pos hbd]
  unfold matchIPv4
  apply matchOctet_complete ('.' :: (t2 ++ '.' :: (t3 ++ '.' :: t4))) h1
  intro l hl
  have htoks : ∀ u ∈ [t2, t3, t4], isOctetRepr u = true := by
    intro u hu
    simp only [List.mem_cons, List.not_mem_nil, or_false] at hu
    rcases hu with rfl | rfl | rfl
    · exact h2
    · exact h3
    · exact h4
  have := matchDots_complete [t2, t3, t4] htoks l hl
  simpa using this

theorem inRange_bounds {lo hi : Nat} {c : Char} (h : inRange lo hi c = true) :
    lo ≤ c.toNat ∧ c.toNat ≤ hi := by
  simpa [inRange, Bool.and_eq_true, decide_eq_true_eq] using h

theorem ascii_isDigU {c : Char} (h : isDig c = true) : isDigU c = true :=
  dig_of_inRange (by omega) (by omega) (show inRange 48 57 c = true from h)

theorem digU_val_le {c : Char} (h : isDigU c = true) : digitValU c ≤ 9 := by
  have hex : ∃ s ∈ ndStarts, (fun s => decide (s ≤ c.toNat) && decide (c.toNat ≤ s + 9)) s
      = true := by
    simpa [isDigU, List.any_eq_true] using h
  have hf : (ndStarts.find? (fun s => decide (s ≤ c.toNat) && decide (c.toNat ≤ s + 9))).isSome
      = true := List.find?_isSome.mpr hex
  obtain ⟨s, hs⟩ := Option.isSome_iff_exists.mp hf
  have hp := List.find?_some hs
  simp only [Bool.and_eq_true, decide_eq_true_eq] at hp
  simp only [digitValU, hs]
  omega

theorem digU_ge48 {c : Char} (h : isDigU c = true) : 48 ≤ c.toNat := by
  simp only [isDigU, List.any_eq_true, Bool.and_eq_true, decide_eq_true_eq] at h
  obtain ⟨s, hsmem, hle, _⟩ := h
  have h48 : ∀ x ∈ ndStarts, 48 ≤ x := by decide
  have := h48 s hsmem
  omega

theorem ascii_digitValU {c : Char} (h : isDig c = true) : digitValU c = c.toNat - 48 := by
  have hb : 48 ≤ c.toNat ∧ c.toNat ≤ 57 := by
    simpa [isDig, inRange, Bool.and_eq_true, decide_eq_true_eq] using h
  have hp : (fun s => decide (s ≤ c.toNat) && decide (c.toNat ≤ s + 9)) 48 = true := by
    simp only [Bool.and_eq_true, decide_eq_true_eq]
    omega
  have hfind : List.find? (fun s => decide (s ≤ c.toNat) && decide (c.toNat ≤ s + 9)) ndStarts
      = Option.some 48 := by
    rw [show ndStarts = 48 :: ndStarts.tail from rfl]
    exact List.find?_cons_of_pos _ hp
  simp [digitValU, hfind]

theorem octRepr_tokU {t : List Char} (h : isOctetRepr t = true) :
    isDecOctetTokU t = true := by
  match t, h with
  | [a], h =>
    have ha : isDigU a = true := by simpa [isOctetRepr] using h
    have hv := digU_val_le ha
    simp only [isDecOctetTokU, tokValU, List.foldl, List.all_cons, List.all_nil,
      List.isEmpty_cons, Bool.not_false, Bool.and_true, Bool.true_and, ha,
      decide_eq_true_eq]
    omega
  | [a, b], h =>
    have h' : inRange 49 57 a = true ∧ isDigU b = true := by
      simpa [isOctetRepr, Bool.and_eq_true] using h
    have ha : isDigU a = true := dig_of_inRange (by omega) (by omega) h'.1
    have hva := digU_val_le ha
    have hvb := digU_val_le h'.2
    simp only [isDecOctetTokU, tokValU, List.foldl, List.all_cons, List.all_nil,
      List.isEmpty_cons, Bool.not_false, Bool.and_true, Bool.true_and, ha, h'.2,
      decide_eq_true_eq]
    omega
  | [a, b, c], h =>
    simp only [isOctetRepr, Bool.or_eq_true, Bool.and_eq_true, beq_iff_eq] at h
    rcases h with (⟨⟨ha, hb⟩, hc⟩ | ⟨⟨ha, hb⟩, hc⟩) | ⟨⟨ha, hb⟩, hc⟩
    · subst ha
      have hvb := digU_val_le hb
      have hvc := digU_val_le hc
      simp only [isDecOctetTokU, tokValU, List.foldl, List.all_cons, List.all_nil,
        List.isEmpty_cons, Bool.not_false, Bool.and_true, Bool.true_and, hb, hc,
        decide_eq_true_eq, show isDigU '1' = true from by decide,
        show digitValU '1' = 1 from by decide]
      omega
    · subst ha
      have hdb : isDigU b = true := dig_of_inRange (by omega) (by omega) hb
      have hvc := digU_val_le hc
      have hbb := inRange_bounds hb
      have hvb : digitValU b = b.toNat - 48 := by
        apply ascii_digitValU
        simp only [isDig, inRange, Bool.and_eq_true, decide_eq_true_eq]
        omega
      simp only [isDecOctetTokU, tokValU, List.foldl, List.all_cons, List.all_nil,
        List.isEmpty_cons, Bool.not_false, Bool.and_true, Bool.true_and, hdb, hc,
        decide_eq_true_eq, show isDigU '2' = true from by decide,
        show digitValU '2' = 2 from by decide, hvb]
      omega
    · subst ha; subst hb
      have hdc : isDigU c = true := dig_of_inRange (by omega) (by omega) hc
      have hbc := inRange_bounds hc
      have hvc : digitValU c = c.toNat - 48 := by
        apply ascii_digitValU
        simp only [isDig, inRange, Bool.and_eq_true, decide_eq_true_eq]
        omega
      simp only [isDecOctetTokU, tokValU, List.foldl, List.all_cons, List.all_nil,
        List.isEmpty_cons, Bool.not_false, Bool.and_true, Bool.true_and, hdc,
        decide_eq_true_eq, show isDigU '2' = true from by decide,
        show isDigU '5' = true from by decide,
        show digitValU '2' = 2 from by decide,
        show digitValU '5' = 5 from by decide, hvc]
      omega

theorem digU_ne_dot {c : Char} (h : isDigU c = true) : (c == '.') = false := by
  cases hbe : (c == '.') with
  | false => rfl
  | true =>
    have hcd : c = '.' := by simpa using hbe
    subst hcd
    have h48 := digU_ge48 h
    have h46 : ('.' : Char).toNat = 46 := rfl
    omega

theorem tok_nodotU {t : List Char} (h : isDecOctetTokU t = true) :
    ∀ c ∈ t, (c == '.') = false := by
  intro c hc
  have hd : isDigU c = true := by
    simp only [isDecOctetTokU, Bool.and_eq_true, List.all_eq_true] at h
    exact h.1.2 c hc
  exact digU_ne_dot hd

theorem splitDots_append {o : List Char} (ho : ∀ c ∈ o, (c == '.') = false) :
    ∀ r, splitDots (o ++ '.' :: r) = o :: splitDots r := by
  induction o with
  | nil => intro r; simp [splitDots]
  | cons c o' ih =>
    intro r
    have hc : (c == '.') = false := ho c (by simp)
    have ho' : ∀ u ∈ o', (u == '.') = false := fun u hu => ho u (by simp [hu])
    simp [splitDots, hc, ih ho' r]

theorem splitDots_pure {o : List Char} (ho : ∀ c ∈ o, (c == '.') = false) :
    splitDots o = [o] := by
  induction o with
  | nil => simp [splitDots]
  | cons c o' ih =>
    have hc : (c == '.') = false := ho c (by simp)
    have ho' : ∀ u ∈ o', (u == '.') = false := fun u hu => ho u (by simp [hu])
    simp [splitDots, hc, ih ho']

theorem matched_decomposesU {t1 t2 t3 t4 : List Char}
    (h1 : isOctetRepr t1 = true) (h2 : isOctetRepr t2 = true)
    (h3 : isOctetRepr t3 = true) (h4 : isOctetRepr t4 = true) :
    decomposes4U (t1 ++ '.' :: (t2 ++ '.' :: (t3 ++ '.' :: t4))) = true := by
  have d1 := octRepr_tokU h1
  have d2 := octRepr_tokU h2
  have d3 := octRepr_tokU h3
  have d4 := octRepr_tokU h4
  have hs : splitDots (t1 ++ '.' :: (t2 ++ '.' :: (t3 ++ '.' :: t4))) = [t1, t2, t3, t4] := by
    rw [splitDots_append (tok_nodotU d1), splitDots_append (tok_nodotU d2),
      splitDots_append (tok_nodotU d3), splitDots_pure (tok_nodotU d4)]
  simp [decomposes4U, hs, d1, d2, d3, d4]

theorem fullmatchIPv4_sound {cs : List Char} (h : fullmatchIPv4 cs = true) :
    ∃ t1 t2 t3 t4, cs = t1 ++ '.' :: (t2 ++ '.' :: (t3 ++ '.' :: t4)) ∧
      isOctetRepr t1 = true ∧ isOctetRepr t2 = true ∧
      isOctetRepr t3 = true ∧ isOctetRepr t4 = true := by
  unfold fullmatchIPv4 at h
  split_ifs at h with hb
  · obtain ⟨u, hu⟩ := Option.isSome_iff_exists.mp h
    obtain ⟨t1, t2, t3, t4, l, rest, hcs, h1, h2, h3, h4, hl, hk⟩ := matchIPv4_inv hu
    have hrest : rest = [] := by
      simp only [kF] at hk
      split_ifs at hk with hc
      exact List.isEmpty_iff.mp ((Bool.and_eq_true _ _).mp hc).1
    subst hrest
    exact ⟨t1, t2, t3, t4, by simpa using hcs, h1, h2, h3, h4⟩
  · simp at h

theorem fullmatch_decomposesU {cs : List Char} (h : fullmatchIPv4 cs = true) :
    decomposes4U cs = true := by
  obtain ⟨t1, t2, t3, t4, hcs, h1, h2, h3, h4⟩ := fullmatchIPv4_sound h
  subst hcs
  exact matched_decomposesU h1 h2 h3 h4

theorem char_toNat_inj {a b : Char} (h : a.toNat = b.toNat) : a = b := by
  rw [← Char.ofNat_toNat a, ← Char.ofNat_toNat b, h]

theorem mk_inRange {lo hi : Nat} {c : Char} (h1 : lo ≤ c.toNat) (h2 : c.toNat ≤ hi) :
    inRange lo hi c = true := by
  simp only [inRange, Bool.and_eq_true, decide_eq_true_eq]
  exact ⟨h1, h2⟩

theorem foldl_val_ge : ∀ (l : List Char) (i : Nat),
    i * 10 ^ l.length ≤ l.foldl (fun a c => 10 * a + (c.toNat - 48)) i := by
  intro l
  induction l with
  | nil => intro i; simp
  | cons c l' ih =>
    intro i
    rw [List.foldl_cons]
    calc i * 10 ^ (c :: l').length = (10 * i) * 10 ^ l'.length := by
          simp [List.length_cons, pow_succ]; ring
      _ ≤ (10 * i + (c.toNat - 48)) * 10 ^ l'.length :=
          Nat.mul_le_mul_right _ (by omega)
      _ ≤ _ := ih (10 * i + (c.toNat - 48))

theorem tok_octRepr {t : List Char} (ht : isDecOctetTok t = true) (hz : noLeadZero t = true) :
    isOctetRepr t = true := by
  simp only [isDecOctetTok, Bool.and_eq_true, List.all_eq_true, decide_eq_true_eq] at ht
  obtain ⟨⟨hne, hall⟩, hval⟩ := ht
  match t, hne, hall, hval, hz with
  | [a], _, hall, hval, hz =>
    exact octRepr_d1 (ascii_isDigU (hall a (by simp)))
  | [a, b], _, hall, hval, hz =>
    have ha := inRange_bounds (hall a (by simp))
    have hz' : (a == '0') = false := by simpa [noLeadZero] using hz
    have ha48 : a.toNat ≠ 48 := by
      intro hh
      have : a = '0' := char_toNat_inj (by simpa using hh)
      subst this
      simp at hz'
    exact octRepr_d2 (mk_inRange (by omega) (by omega)) (ascii_isDigU (hall b (by simp)))
  | [a, b, c], _, hall, hval, hz =>
    have ha := inRange_bounds (hall a (by simp))
    have hb := inRange_bounds (hall b (by simp))
    have hc := inRange_bounds (hall c (by simp))
    have hz' : (a == '0') = false := by simpa [noLeadZero] using hz
    have ha48 : a.toNat ≠ 48 := by
      intro hh
      have : a = '0' := char_toNat_inj (by simpa using hh)
      subst this
      simp at hz'
    have hvv : 10 * (10 * (a.toNat - 48) + (b.toNat - 48)) + (c.toNat - 48) ≤ 255 := by
      simpa [tokVal, List.foldl] using hval
    have hcase : a.toNat = 49 ∨ a.toNat = 50 := by omega
    rcases hcase with h49 | h50
    · have : a = '1' := char_toNat_inj (by simpa using h49)
      subst this
      exact octRepr_1x (ascii_isDigU (hall b (by simp))) (ascii_isDigU (hall c (by simp)))
    · have : a = '2' := char_toNat_inj (by simpa using h50)
      subst this
      have hbcase : b.toNat ≤ 52 ∨ b.toNat = 53 := by omega
      rcases hbcase with hb52 | hb53
      · exact octRepr_2x (mk_inRange (by omega) (by omega)) (ascii_isDigU (hall c (by simp)))
      · have : b = '5' := char_toNat_inj (by simpa using hb53)
        subst this
        have : c.toNat ≤ 53 := by omega
        exact octRepr_25 (mk_inRange (by omega) (by omega))
  | a :: b :: c :: d :: rest, _, hall, hval, hz =>
    exfalso
    have ha := inRange_bounds (hall a (by simp))
    have hz' : (a == '0') = false := by simpa [noLeadZero] using hz
    have ha48 : a.toNat ≠ 48 := by
      intro hh
      have : a = '0' := char_toNat_inj (by simpa using hh)
      subst this
      simp at hz'
    have hge := foldl_val_ge (b :: c :: d :: rest) (a.toNat - 48)
    have hvv : (b :: c :: d :: rest).foldl (fun a c => 10 * a + (c.toNat - 48))
        (a.toNat - 48) ≤ 255 := by
      simpa [tokVal, List.foldl_cons] using hval
    have hlen : (b :: c :: d :: rest).length = rest.length + 3 := by simp
    have hpow : 1000 ≤ 10 ^ (b :: c :: d :: rest).length := by
      rw [hlen, pow_add]
      calc (1000 : Nat) = 1 * 10 ^ 3 := by norm_num
        _ ≤ 10 ^ rest.length * 10 ^ 3 :=
            Nat.mul_le_mul_right _ (Nat.one_le_pow _ _ (by omega))
    have h1a : 1 ≤ a.toNat - 48 := by omega
    have : 1000 ≤ (a.toNat - 48) * 10 ^ (b :: c :: d :: rest).length := by
      calc (1000 : Nat) = 1 * 1000 := by norm_num
        _ ≤ (a.toNat - 48) * (10 ^ (b :: c :: d :: rest).length) := Nat.mul_le_mul h1a hpow
    omega

theorem dropWhile_no {p : Char → Bool} {l : List Char} (h : ∀ c ∈ l, p c = false) :
    l.dropWhile p = l := by
  cases l with
  | nil => rfl
  | cons c t => simp [List.dropWhile_cons, h c (by simp)]

theorem pyStrip_eq_self {l : List Char} (h : ∀ c ∈ l, pyIsSpace c = false) :
    pyStrip l = l := by
  unfold pyStrip
  rw [dropWhile_no h]
  rw [dropWhile_no (fun c hc => h c (List.mem_reverse.mp hc))]
  exact List.reverse_reverse l

theorem dig_not_space {c : Char} (h : isDig c = true) : pyIsSpace c = false := by
  have hb := inRange_bounds h
  simp only [pyIsSpace, inRange, Bool.or_eq_false_iff, Bool.and_eq_false_iff,
    decide_eq_false_iff_not, not_le]
  omega

theorem matchAt_inv {prev : Option Char} {cs r : List Char}
    (h : matchAt prev cs = Option.some r) :
    ∃ m, cs = m ++ r ∧ m ≠ [] ∧ decomposes4U m = true ∧ wordB prev = false ∧
      wordB r.head? = false := by
  unfold matchAt at h
  split_ifs at h with hb
  obtain ⟨t1, t2, t3, t4, l, rest, hcs, h1, h2, h3, h4, hl, hk⟩ := matchIPv4_inv h
  have hks : isBoundary (Option.some l) rest.head? = true ∧ rest = r := by
    simp only [kS] at hk
    split_ifs at hk with hc
    exact ⟨hc, by simpa using hk⟩
  obtain ⟨hbnd2, hrr⟩ := hks
  obtain ⟨a, t1', ht1e, ha⟩ := octRepr_head h1
  have hwa : wordChar a = true := dig_word ha
  have hwl : wordChar l = true := dig_word hl
  have hwr : wordB rest.head? = false := by
    have hne : wordB (Option.some l) ≠ wordB rest.head? := bne_iff_ne.mp hbnd2
    have hsl : wordB (Option.some l) = true := by simp [wordB, hwl]
    rw [hsl] at hne
    exact Bool.eq_false_iff.mpr (Ne.symm hne)
  have hwp : wordB prev = false := by
    rw [hcs, ht1e] at hb
    have hhead : ((a :: t1') ++ '.' :: (t2 ++ '.' :: (t3 ++ '.' :: t4)) ++ rest).head?
        = Option.some a := by simp
    rw [hhead] at hb
    have hne : wordB prev ≠ wordB (Option.some a) := bne_iff_ne.mp hb
    have hsa : wordB (Option.some a) = true := by simp [wordB, hwa]
    rw [hsa] at hne
    exact Bool.eq_false_iff.mpr hne
  refine ⟨t1 ++ '.' :: (t2 ++ '.' :: (t3 ++ '.' :: t4)), ?_, ?_, 
    matched_decomposesU h1 h2 h3 h4, hwp, ?_⟩
  · rw [hcs, hrr]
  · subst ht1e; simp
  · rw [← hrr]; exact hwr

theorem getLast?_concat {m : List Char} (d : Char) (h : m ≠ []) :
    m.getLast? = Option.some (m.getLastD d) := by
  rw [List.getLastD_eq_getLast?]
  obtain ⟨z, hz⟩ := Option.isSome_iff_exists.mp (List.getLast?_isSome.mpr h)
  rw [hz]
  rfl

theorem findAllAux_sound :
    ∀ (fuel : Nat) (done cs : List Char) (p : Nat) (m : List Char),
      (p, m) ∈ findAllAux fuel done.getLast? cs done.length →
      ∃ pre post, done ++ cs = pre ++ (m ++ post) ∧ pre.length = p ∧ m ≠ [] ∧
        decomposes4U m = true ∧ wordB pre.getLast? = false ∧ wordB post.head? = false := by
  intro fuel
  induction fuel with
  | zero =>
    intro done cs p m h
    simp [findAllAux] at h
  | succ fuel ih =>
    intro done cs p m h
    match cs with
    | [] => simp [findAllAux] at h
    | c :: rest =>
      rw [findAllAux] at h
      cases hma : matchAt done.getLast? (c :: rest) with
      | none =>
        rw [hma] at h
        dsimp only at h
        have hlast : Option.some c = (done ++ [c]).getLast? := by
          rw [List.getLast?_append_of_ne_nil _ (by simp)]
          rfl
        have hlen : done.length + 1 = (done ++ [c]).length := by simp
        rw [hlast, hlen] at h
        obtain ⟨pre, post, hsplit, hplen, hmne, hdec, hwp, hwr⟩ := ih (done ++ [c]) rest p m h
        refine ⟨pre, post, ?_, hplen, hmne, hdec, hwp, hwr⟩
        rw [← hsplit]
        simp
      | some r =>
        rw [hma] at h
        dsimp only at h
        obtain ⟨m₀, hcs0, hm0ne, hdec0, hwp0, hwr0⟩ := matchAt_inv hma
        have hLlen : (c :: rest).length = m₀.length + r.length := by rw [hcs0]; simp
        have hL : (c :: rest).length - r.length = m₀.length := by omega
        have hm0pos : ¬ m₀.length = 0 := by
          cases m₀ with
          | nil => exact absurd rfl hm0ne
          | cons x xs => simp
        rw [hL, if_neg hm0pos] at h
        have htake : (c :: rest).take m₀.length = m₀ := by
          rw [hcs0]
          exact List.take_left m₀ r
        rw [htake] at h
        rcases List.mem_cons.mp h with heq | hmem
        · injection heq with hp hm
          subst hp; subst hm
          refine ⟨done, r, ?_, rfl, hm0ne, hdec0, hwp0, hwr0⟩
          rw [hcs0]
        · have h1 : Option.some (m₀.getLastD c) = (done ++ m₀).getLast? := by
            rw [List.getLast?_append_of_ne_nil _ hm0ne, getLast?_concat c hm0ne]
          have h2 : done.length + m₀.length = (done ++ m₀).length := by simp
          rw [h1, h2] at hmem
          obtain ⟨pre, post, hsplit, hplen, hmne, hdec, hwp, hwr⟩ := ih (done ++ m₀) r p m hmem
          refine ⟨pre, post, ?_, hplen, hmne, hdec, hwp, hwr⟩
          rw [← hsplit, hcs0]
          simp

theorem findAllAux_order :
    ∀ (fuel : Nat) (prev : Option Char) (cs : List Char) (pos : Nat),
      (∀ x ∈ findAllAux fuel prev cs pos, pos ≤ x.1) ∧
      List.Pairwise (fun a b => a.1 + a.2.length ≤ b.1 ∧ a.1 < b.1)
        (findAllAux fuel prev cs pos) := by
  intro fuel
  induction fuel with
  | zero => intro prev cs pos; simp [findAllAux]
  | succ fuel ih =>
    intro prev cs pos
    match cs with
    | [] => simp [findAllAux]
    | c :: rest =>
      rw [findAllAux]
      cases hma : matchAt prev (c :: rest) with
      | none =>
        dsimp only
        obtain ⟨hb, hp⟩ := ih (Option.some c) rest (pos + 1)
        exact ⟨fun x hx => le_trans (by omega) (hb x hx), hp⟩
      | some r =>
        dsimp only
        by_cases hz : (c :: rest).length - r.length = 0
        · rw [if_pos hz]
          obtain ⟨hb, hp⟩ := ih (Option.some c) rest (pos + 1)
          constructor
          · intro x hx
            rcases List.mem_cons.mp hx with heq | hx'
            · subst heq; simp
            · exact le_trans (by omega) (hb x hx')
          · rw [List.pairwise_cons]
            refine ⟨?_, hp⟩
            intro b hb'
            have hbb := hb b hb'
            constructor <;> simp <;> omega
        · rw [if_neg hz]
          obtain ⟨hb, hp⟩ := ih (((c :: rest).take ((c :: rest).length - r.length)).getLastD c)
            r (pos + ((c :: rest).length - r.length))
          have hlen : ((c :: rest).take ((c :: rest).length - r.length)).length
              = (c :: rest).length - r.length := by
            rw [List.length_take]
            exact Nat.min_eq_left (Nat.sub_le _ _)
          constructor
          · intro x hx
            rcases List.mem_cons.mp hx with heq | hx'
            · subst heq; simp
            · exact le_trans (by omega) (hb x hx')
          · rw [List.pairwise_cons]
            refine ⟨?_, hp⟩
            intro b hb'
            have hbb := hb b hb'
            constructor
            · simp only [hlen]
              omega
            · simp only []
              omega

theorem findAllPos_sound {s : String} {p : Nat} {m : List Char}
    (h : (p, m) ∈ findAllPos s) :
    ∃ pre post, s.data = pre ++ (m ++ post) ∧ pre.length = p ∧ m ≠ [] ∧
      decomposes4U m = true ∧ wordB pre.getLast? = false ∧ wordB post.head? = false := by
  have h' : (p, m) ∈ findAllAux (s.data.length + 1) (([] : List Char).getLast?)
      s.data ([] : List Char).length := h
  have := findAllAux_sound (s.data.length + 1) [] s.data p m h'
  simpa using this

theorem findAllIPv4_sound {s : String} {m : String} (h : m ∈ findAllIPv4 s) :
    decomposes4U m.data = true := by
  simp only [findAllIPv4, List.mem_map] at h
  obtain ⟨⟨p, l⟩, hmem, hm⟩ := h
  obtain ⟨pre, post, _, _, _, hdec, _, _⟩ := findAllPos_sound hmem
  rw [← hm]
  exact hdec

theorem tok_digits {t : List Char} (h : isDecOctetTok t = true) :
    ∀ c ∈ t, isDig c = true := by
  intro c hc
  simp only [isDecOctetTok, Bool.and_eq_true, List.all_eq_true] at h
  exact h.1.2 c hc

/-- Claim C1 counterexample: in a CPython `str` pattern `\d` matches
any Unicode decimal digit, so the program accepts the Arabic-Indic
string "\u0661.\u0662.\u0663.\u0664" (and the extractor returns it from
surrounding text), yet that string does not decompose into four
dot-separated ASCII decimal tokens — the claim as stated fails on the
program. -/
theorem claim_C1_counterexample :
    is_valid_ipv4 (PyValue.str "١.٢.٣.٤") = Except.ok true ∧
    decomposes4 (pyStrip ("١.٢.٣.٤" : String).data) = false ∧
    find_ipv4_in_text (PyValue.str "a ١.٢.٣.٤ b") = Except.ok ["١.٢.٣.٤"] ∧
    decomposes4 ("١.٢.٣.٤" : String).data = false :=
  ⟨rfl, rfl, rfl, rfl⟩

/-- Claim C1 as amended: with "decimal" read as Unicode decimal (the
class `\d` matches), every string accepted by `is_valid_ipv4`
decomposes, after the validator's trimming, into exactly four
dot-separated runs of Unicode decimal digits, each run's numeric value
in [0, 255], with no extraneous characters; and so does every element
of the list returned by `find_ipv4_in_text` on a string input. -/
theorem claim_C1_amended_thm :
    (∀ s : String, is_valid_ipv4 (PyValue.str s) = Except.ok true →
      decomposes4U (pyStrip s.data) = true) ∧
    (∀ (t : String) (l : List String) (m : String),
      find_ipv4_in_text (PyValue.str t) = Except.ok l → m ∈ l →
      decomposes4U m.data = true) := by
  constructor
  · intro s h
    have hfm : fullmatchIPv4 (pyStrip s.data) = true := by
      simpa [is_valid_ipv4] using h
    exact fullmatch_decomposesU hfm
  · intro t l m hl hm
    have hl' : l = findAllIPv4 t := by
      simpa [find_ipv4_in_text] using hl.symm
    exact findAllIPv4_sound (hl' ▸ hm)

/-- Witness for amended C1 at the inputs `"1.2.3.4"` and `"x ١.٢.٣.٤ y"`. -/
theorem claim_C1_witness :
    decomposes4U (pyStrip ("1.2.3.4" : String).data) = true ∧
    decomposes4U ("١.٢.٣.٤" : String).data = true :=
  ⟨claim_C1_amended_thm.1 "1.2.3.4" rfl,
   claim_C1_amended_thm.2 "x ١.٢.٣.٤ y" ["١.٢.٣.٤"] "١.٢.٣.٤" rfl (by decide)⟩

/-- Claim C2: any string built of exactly four dot-separated decimal
octet tokens, each with value in [0, 255] and with no leading zero on a
multi-digit token, is accepted by `is_valid_ipv4`. -/
theorem claim_C2 (s : String) (t1 t2 t3 t4 : List Char)
    (hs : s.data = t1 ++ '.' :: (t2 ++ '.' :: (t3 ++ '.' :: t4)))
    (h1 : isDecOctetTok t1 = true) (z1 : noLeadZero t1 = true)
    (h2 : isDecOctetTok t2 = true) (z2 : noLeadZero t2 = true)
    (h3 : isDecOctetTok t3 = true) (z3 : noLeadZero t3 = true)
    (h4 : isDecOctetTok t4 = true) (z4 : noLeadZero t4 = true) :
    is_valid_ipv4 (PyValue.str s) = Except.ok true := by
  have r1 := tok_octRepr h1 z1
  have r2 := tok_octRepr h2 z2
  have r3 := tok_octRepr h3 z3
  have r4 := tok_octRepr h4 z4
  have hnos : ∀ c ∈ s.data, pyIsSpace c = false := by
    intro c hc
    rw [hs] at hc
    simp only [List.mem_append, List.mem_cons] at hc
    have hdot : pyIsSpace '.' = false := by decide
    rcases hc with hc | hc | hc | hc | hc | hc | hc
    · exact dig_not_space (tok_digits h1 c hc)
    · exact hc ▸ hdot
    · exact dig_not_space (tok_digits h2 c hc)
    · exact hc ▸ hdot
    · exact dig_not_space (tok_digits h3 c hc)
    · exact hc ▸ hdot
    · exact dig_not_space (tok_digits h4 c hc)
  have hstrip : pyStrip s.data = s.data := pyStrip_eq_self hnos
  simp only [is_valid_ipv4]
  rw [hstrip, hs, fullmatchIPv4_complete r1 r2 r3 r4]

/-- Witness for C2 at `"31.42.5.255"`. -/
theorem claim_C2_witness : is_valid_ipv4 (PyValue.str "31.42.5.255") = Except.ok true :=
  claim_C2 "31.42.5.255" ['3', '1'] ['4', '2'] ['5'] ['2', '5', '5'] rfl
    (by decide) (by decide) (by decide) (by decide)
    (by decide) (by decide) (by decide) (by decide)

/-- Claim C3 counterexample: "\u0661.\u0662.\u0663.\u0664" contains
non-(ASCII-)digit characters beyond the three separating dots (it fails
the four-ASCII-decimal-token decomposition even after trimming), so the
claim as stated predicts rejection — but the program accepts it, since
`\d` matches Unicode decimal digits.  Likewise "\u2000" ++ "1.2.3.4"
is accepted: `str.strip()` removes U+2000, a code point outside the
Latin-1 whitespace range. -/
theorem claim_C3_counterexample :
    decomposes4 (pyStrip ("١.٢.٣.٤" : String).data) = false ∧
    is_valid_ipv4 (PyValue.str "١.٢.٣.٤") = Except.ok true ∧
    is_valid_ipv4 (PyValue.str "\u20001.2.3.4") = Except.ok true :=
  ⟨rfl, rfl, rfl⟩

/-- Claim C3 as amended: any string whose trimmed form (Python's full
Unicode trimming) does not decompose into exactly four dot-separated
runs of Unicode decimal digits with values in [0, 255] (an out-of-range
octet, a wrong number of tokens, or a non-digit character beyond the
three separating dots) is rejected by `is_valid_ipv4`; the defect is
judged on the trimmed string, so whitespace-padded defective strings
are covered. -/
theorem claim_C3_amended_thm (s : String) (h : decomposes4U (pyStrip s.data) = false) :
    is_valid_ipv4 (PyValue.str s) = Except.ok false := by
  have hf : fullmatchIPv4 (pyStrip s.data) = false := by
    cases hfm : fullmatchIPv4 (pyStrip s.data) with
    | false => rfl
    | true => exact absurd (fullmatch_decomposesU hfm) (by simp [h])
  simp [is_valid_ipv4, hf]

/-- Witness for amended C3 at `" 300.1.2.3 "` (out-of-range octet,
padded). -/
theorem claim_C3_witness : is_valid_ipv4 (PyValue.str " 300.1.2.3 ") = Except.ok false :=
  claim_C3_amended_thm " 300.1.2.3 " rfl

/-- Claim C4: the five concrete validator scenarios from the spec:
`"256.0.0.1"`, `"192.168.1"`, `"192.168.01.1"` are rejected;
`"0.0.0.0"` and `"255.255.255.255"` are accepted. -/
theorem claim_C4 :
    is_valid_ipv4 (PyValue.str "256.0.0.1") = Except.ok false ∧
    is_valid_ipv4 (PyValue.str "192.168.1") = Except.ok false ∧
    is_valid_ipv4 (PyValue.str "192.168.01.1") = Except.ok false ∧
    is_valid_ipv4 (PyValue.str "0.0.0.0") = Except.ok true ∧
    is_valid_ipv4 (PyValue.str "255.255.255.255") = Except.ok true :=
  ⟨rfl, rfl, rfl, rfl, rfl⟩

/-- Claim C5: the concrete extraction scenario from the spec (with
`"256.1.1.1"` and all its substrings excluded), and the general shape of
the extractor's output: matches are ordered by the position of their
first character (consecutive matches do not even overlap), every
reported match occurs at its reported position, the result is exactly
the scan's match list (so duplicates are preserved), and a concrete
duplicate is preserved. -/
theorem claim_C5 :
    findAllIPv4
        "Client 192.168.0.10 connected from 10.0.0.1; failed at 256.1.1.1 and 8.8.8.8."
      = ["192.168.0.10", "10.0.0.1", "8.8.8.8"] ∧
    (∀ s : String,
      List.Pairwise (fun a b => a.1 + a.2.length ≤ b.1 ∧ a.1 < b.1) (findAllPos s)) ∧
    (∀ (s : String) (p : Nat) (m : List Char), (p, m) ∈ findAllPos s →
      ∃ pre post, s.data = pre ++ (m ++ post) ∧ pre.length = p) ∧
    (∀ s : String, findAllIPv4 s = (findAllPos s).map (fun x => String.mk x.2)) ∧
    findAllIPv4 "1.2.3.4 and 1.2.3.4" = ["1.2.3.4", "1.2.3.4"] := by
  refine ⟨rfl, ?_, ?_, fun s => rfl, rfl⟩
  · intro s
    exact (findAllAux_order _ _ _ _).2
  · intro s p m h
    obtain ⟨pre, post, hsplit, hplen, _, _, _, _⟩ := findAllPos_sound h
    exact ⟨pre, post, hsplit, hplen⟩

/-- Witness for C5's positional part at `"1.2.3.4"`, position 0. -/
theorem claim_C5_witness :
    ∃ pre post, ("1.2.3.4" : String).data =
      pre ++ (('1' :: '.' :: '2' :: '.' :: '3' :: '.' :: ['4']) ++ post) ∧ pre.length = 0 :=
  claim_C5.2.2.1 "1.2.3.4" 0 ('1' :: '.' :: '2' :: '.' :: '3' :: '.' :: ['4']) (by decide)

/-- Claim C6: no match reported by the extractor is adjacent, on either
side, to a word character (alphanumeric or underscore): the character
just before a match and the character just after it, when they exist,
are non-word characters.  Concretely, the occurrence inside
`"x1.2.3.4y"` is excluded entirely. -/
theorem claim_C6 :
    (∀ (s : String) (p : Nat) (m : List Char), (p, m) ∈ findAllPos s →
      ∃ pre post, s.data = pre ++ (m ++ post) ∧ pre.length = p ∧
        (∀ c, pre.getLast? = Option.some c → wordChar c = false) ∧
        (∀ c, post.head? = Option.some c → wordChar c = false)) ∧
    findAllIPv4 "Random strings x1.2.3.4y but valid 1.2.3.4 inside" = ["1.2.3.4"] := by
  refine ⟨?_, rfl⟩
  intro s p m h
  obtain ⟨pre, post, hsplit, hplen, _, _, hwp, hwr⟩ := findAllPos_sound h
  refine ⟨pre, post, hsplit, hplen, ?_, ?_⟩
  · intro c hc
    rw [hc] at hwp
    simpa [wordB] using hwp
  · intro c hc
    rw [hc] at hwr
    simpa [wordB] using hwr

/-- Witness for C6 at `"a 5.6.7.8"`, position 2. -/
theorem claim_C6_witness :
    ∃ pre post, ("a 5.6.7.8" : String).data =
      pre ++ (('5' :: '.' :: '6' :: '.' :: '7' :: '.' :: ['8']) ++ post) ∧ pre.length = 2 ∧
      (∀ c, pre.getLast? = Option.some c → wordChar c = false) ∧
      (∀ c, post.head? = Option.some c → wordChar c = false) :=
  claim_C6.1 "a 5.6.7.8" 2 ('5' :: '.' :: '6' :: '.' :: '7' :: '.' :: ['8']) (by decide)

/-- Claim C7: `is_valid_ipv4` returns `False`, raising no exception, on
every non-string input (`None`, integers, byte strings, lists). -/
theorem claim_C7 (v : PyValue) (h : ∀ s : String, v ≠ PyValue.str s) :
    is_valid_ipv4 v = Except.ok false := by
  cases v with
  | none => rfl
  | str s => exact absurd rfl (h s)
  | int i => rfl
  | bytes b => rfl
  | list l => rfl

/-- Witness for C7 at the integer input `3`. -/
theorem claim_C7_witness : is_valid_ipv4 (PyValue.int 3) = Except.ok false :=
  claim_C7 (PyValue.int 3) (fun _ h => PyValue.noConfusion h)

/-- Claim C8 counterexample: on the byte-string input `b"1.2.3.4"`
(code points 49 46 50 46 51 46 52) the unguarded `IPV4_REGEX.findall`
call raises `TypeError` — `find_ipv4_in_text` does not return a value —
refuting "raises no exception under any input whatsoever (binary and
non-textual input included)". -/
theorem claim_C8_counterexample :
    find_ipv4_in_text (PyValue.bytes [49, 46, 50, 46, 51, 46, 52]) =
      Except.error PyErr.typeError := rfl

/-- Claim C8 as amended: `find_ipv4_in_text` returns the empty list on
absent (`None`) input and raises no exception on `None` or on any
string input (empty, malformed, or arbitrary character content); on
non-text, non-`None` input the regex call raises `TypeError`. -/
theorem claim_C8_amended_thm :
    find_ipv4_in_text PyValue.none = Except.ok [] ∧
    (∀ s : String, ∃ l, find_ipv4_in_text (PyValue.str s) = Except.ok l) :=
  ⟨rfl, fun s => ⟨findAllIPv4 s, rfl⟩⟩

/-- Claim C10: the extractor treats a dot as a boundary inside a longer
dotted run: `"1.2.3.4.5.6.7.8"` yields the two matches `"1.2.3.4"` and
`"5.6.7.8"`, while the validator rejects the whole string — so
extracted matches can be substrings of a run the validator rejects. -/
theorem claim_C10 :
    findAllIPv4 "1.2.3.4.5.6.7.8" = ["1.2.3.4", "5.6.7.8"] ∧
    is_valid_ipv4 (PyValue.str "1.2.3.4.5.6.7.8") = Except.ok false :=
  ⟨rfl, rfl⟩

/-- Claim C9 counterexample.  First conjunct: with mode `url`,
`--source` provided but empty, no `--test`, and a fetch that would
succeed, the CLI exits 2 — the claim's "exit 2 only when --source is
missing, else 0 when nothing fails" predicts 0 (the `if not
args.source` check treats the empty string like an absent one).  Second
conjunct: with `--test` given and a passing suite, mode `url` and
`--source` missing, the CLI exits 0 — the claim predicts 2 (the test
run takes priority over the mode/source handling). -/
theorem claim_C9_counterexample :
    cli_main ⟨Mode.url, Option.some "", false⟩
        ⟨"", Except.ok "page", Except.ok "page", true⟩ = 2 ∧
    cli_main ⟨Mode.url, Option.none, true⟩
        ⟨"", Except.ok "page", Except.ok "page", true⟩ = 0 :=
  ⟨rfl, rfl⟩

/-- Claim C9 as amended: exit codes follow `cliSpecExit` — `--test`
runs the suite first (1 on failure, 0 on success); otherwise exit 2
when mode is `url`/`file` and `--source` is missing or empty, exit 1 on
a fetch/read failure, exit 0 otherwise. -/
theorem claim_C9_amended_thm :
    ∀ (args : Args) (w : World), cli_main args w = cliSpecExit args w := by
  intro args w
  obtain ⟨mode, source, test⟩ := args
  obtain ⟨stdin, fetch, file, tp⟩ := w
  cases test with
  | true => rfl
  | false =>
    cases mode with
    | user => simp [cli_main, cliSpecExit]
    | url =>
      cases source with
      | none =>
        simp [cli_main, cliSpecExit, sourceFalsy]
      | some v =>
        by_cases hv : v = ""
        · subst hv
          simp [cli_main, cliSpecExit, sourceFalsy,
            show ("" : String).isEmpty = true from rfl]
        · cases fetch with
          | error e =>
            simp [cli_main, cliSpecExit, sourceFalsy, String.isEmpty_iff, hv, Except.isOk, Except.toBool]
          | ok t =>
            simp [cli_main, cliSpecExit, sourceFalsy, String.isEmpty_iff, hv, Except.isOk, Except.toBool]
    | file =>
      cases source with
      | none =>
        simp [cli_main, cliSpecExit, sourceFalsy]
      | some v =>
        by_cases hv : v = ""
        · subst hv
          simp [cli_main, cliSpecExit, sourceFalsy,
            show ("" : String).isEmpty = true from rfl]
        · cases file with
          | error e =>
            simp [cli_main, cliSpecExit, sourceFalsy, String.isEmpty_iff, hv, Except.isOk, Except.toBool]
          | ok t =>
            simp [cli_main, cliSpecExit, sourceFalsy, String.isEmpty_iff, hv, Except.isOk, Except.toBool]
